import Mathlib

/-!
Verification development for the genre-trend pipeline in `analyze_trend.py`.

The pandas program is shallowly embedded as follows:
  * a pandas float scalar is modelled by `PF` (an exact rational, NaN, or a
    signed infinity); `PF.nan` plays the role of a null value, exactly as
    NaN does in a pandas float column;
  * a data frame row is an association list of column names to `PF` values,
    and a frame that is indexed by (Year, Season) is a list of key/row pairs;
  * floating-point arithmetic is replaced by exact rational arithmetic; on
    every concrete computation examined here (sums of small counts, divisions
    such as 2/4, and threshold products such as count * 0.4 for count at most
    20) the IEEE double computation is exact or rounds to the same comparison
    outcome, so the rational embedding is faithful at that granularity;
  * `groupby(["Year", "Season"])` is applied to a `Season` column that
    `analyze_trend` has made categorical with the fixed order
    winter < spring < summer < fall, so group keys are the sorted cartesian
    product of the observed years with all four seasons, and a season that is
    unobserved for one of those years forms an empty group whose sums are
    null; the subsequent `.dropna()` removes such rows.
-/

namespace AnalyzeTrend

/-- A pandas float scalar: an exact rational number, NaN (which doubles as
the null value of a float column), or a signed infinity. -/
inductive PF where
  | num (q : ℚ)
  | nan
  | inf
  | ninf
deriving DecidableEq, Repr

/-- True when the scalar is NaN, the null of a pandas float column. -/
def PF.isNan : PF → Bool
  | PF.nan => true
  | _ => false

/-- True when the scalar is an actual (finite) number. -/
def PF.isNum : PF → Bool
  | PF.num _ => true
  | _ => false

/-- The rational carried by a finite scalar, and 0 otherwise. -/
def pfToQ : PF → ℚ
  | PF.num q => q
  | _ => 0

/-- Strict greater-than on pandas scalars: NaN compares false against
everything, mirroring IEEE comparison semantics used by `nlargest`. -/
def pfGtB : PF → PF → Bool
  | PF.nan, _ => false
  | _, PF.nan => false
  | PF.num a, PF.num b => decide (b < a)
  | PF.inf, PF.inf => false
  | PF.inf, _ => true
  | _, PF.inf => false
  | PF.ninf, _ => false
  | PF.num _, PF.ninf => true

/-- The comparison performed by the pandas expression df >= 1 on one cell:
true for a number at least 1 and for positive infinity, false for NaN. -/
def pfGe1 : PF → Bool
  | PF.num q => decide (1 ≤ q)
  | PF.inf => true
  | _ => false

/-- IEEE-style addition on the embedded scalars (exact on the rationals). -/
def ieeeAdd : PF → PF → PF
  | PF.nan, _ => PF.nan
  | _, PF.nan => PF.nan
  | PF.inf, PF.ninf => PF.nan
  | PF.ninf, PF.inf => PF.nan
  | PF.inf, _ => PF.inf
  | _, PF.inf => PF.inf
  | PF.ninf, _ => PF.ninf
  | _, PF.ninf => PF.ninf
  | PF.num a, PF.num b => PF.num (a + b)

/-- The skipna sum used by pandas: NaN entries are discarded and the rest
are added; an empty or all-NaN list sums to 0. -/
def sumPF (l : List PF) : PF :=
  (l.filter (fun v => !v.isNan)).foldr ieeeAdd (PF.num 0)

/-- IEEE-style division on the embedded scalars: division of a nonzero
number by zero gives a signed infinity, 0/0 and any NaN operand give NaN. -/
def pdiv : PF → PF → PF
  | PF.nan, _ => PF.nan
  | _, PF.nan => PF.nan
  | PF.num a, PF.num b =>
      if b = 0 then (if a = 0 then PF.nan else if 0 < a then PF.inf else PF.ninf)
      else PF.num (a / b)
  | PF.num _, PF.inf => PF.num 0
  | PF.num _, PF.ninf => PF.num 0
  | PF.inf, PF.num b => if 0 ≤ b then PF.inf else PF.ninf
  | PF.ninf, PF.num b => if 0 ≤ b then PF.ninf else PF.inf
  | PF.inf, _ => PF.nan
  | PF.ninf, _ => PF.nan

/-- The four seasons; `analyze_trend` line 31 turns the Season column into a
pandas Categorical with exactly this order, which this inductive bakes in. -/
inductive Season where
  | winter
  | spring
  | summer
  | fall
deriving DecidableEq, Repr

/-- Ordinal of a season in the fixed categorical order of the pipeline. -/
def seasonOrd : Season → ℕ
  | Season.winter => 0
  | Season.spring => 1
  | Season.summer => 2
  | Season.fall => 3

/-- All four season categories, in categorical (chronological) order. -/
def allSeasons : List Season :=
  [Season.winter, Season.spring, Season.summer, Season.fall]

/-- A partition key: the (Year, Season) pair the pipeline groups by. -/
abbrev PKey := ℤ × Season

/-- Chronological order on partition keys: by year, then by season ordinal. -/
def keyLt (a b : PKey) : Prop :=
  a.1 < b.1 ∨ (a.1 = b.1 ∧ seasonOrd a.2 < seasonOrd b.2)

/-- A row of the raw input frame: its Score, Year and Season attributes plus
the genre columns as an association list of column name to 0/1 count. -/
structure RawRow where
  score : PF
  year : ℤ
  season : Season
  genres : List (String × PF)
deriving DecidableEq, Repr

/-- The raw input frame: its genre column names and its rows. -/
structure RawTable where
  gcols : List String
  rows : List RawRow
deriving DecidableEq, Repr

/-- Modelled from the spec: the list basic_headers imported from
build_dataset.py (a file that is not part of this source tree) holds the
fixed non-genre attribute column names, which the spec fixes as Score, Year
and Season; aggregation keeps only columns outside this list. -/
def basicHeaders : List String := ["Score", "Year", "Season"]

/-- A frame indexed by (Year, Season): each row is the key together with an
association list from column name to value. -/
abbrev GTable := List (PKey × List (String × PF))

/-- First value stored under column name c in a row, NaN when absent. -/
def lookupCell (r : List (String × PF)) (c : String) : PF :=
  ((r.find? (fun p => decide (p.1 = c))).map Prod.snd).getD PF.nan

/-- The value of a raw row in column c of the frame: the Score column is the
score attribute, any other name is looked up among the genre columns. -/
def cellOfRaw (r : RawRow) (c : String) : PF :=
  if c = "Score" then r.score else lookupCell r.genres c

/-- The rows of one (Year, Season) group, in original order, as produced by
the pandas groupby. -/
def partitionRows (rows : List RawRow) (k : PKey) : List RawRow :=
  rows.filter (fun r => decide (r.year = k.1) && decide (r.season = k.2))

/-- Embedding of season.nlargest(n, Score, keep=all) from line 17: a row is
kept exactly when its score is not null and fewer than n rows of the group
have a strictly larger score, so every boundary tie is kept. -/
def nlargestAll (n : ℤ) (rows : List RawRow) : List RawRow :=
  rows.filter (fun r =>
    !r.score.isNan &&
      decide (((rows.countP (fun r2 => pfGtB r2.score r.score) : ℕ) : ℤ) < n))

/-- The distinct years of the rows, sorted ascending, as the groupby sorts
its keys. -/
def sortedYears (rows : List RawRow) : List ℤ :=
  List.insertionSort (· ≤ ·) (rows.map (fun r => r.year)).dedup

/-- The group keys of groupby([Year, Season]) with the categorical Season:
the sorted observed years crossed with all four season categories. -/
def prodKeys (rows : List RawRow) : List PKey :=
  (sortedYears rows).flatMap (fun y => allSeasons.map (fun s => (y, s)))

/-- The concatenated per-group output of the first groupby-apply of
only_genres_for_top_n (lines 16-18): the selected rows of every group. -/
def selectedAll (t : RawTable) (n : ℤ) : List RawRow :=
  (prodKeys t.rows).flatMap (fun k => nlargestAll n (partitionRows t.rows k))

/-- The per-group column sum of the second groupby: an empty group sums to
null, a nonempty group to the skipna sum of its values. -/
def groupSum (l : List PF) : PF :=
  if l.isEmpty then PF.nan else sumPF l

/-- The summed row of one group key: every non-key column of the frame
(Score and the genre columns), summed per group with groupSum. -/
def summedRow (t : RawTable) (n : ℤ) (k : PKey) : List (String × PF) :=
  ("Score" :: t.gcols).map (fun c =>
    (c, groupSum ((partitionRows (selectedAll t n) k).map
      (fun r => cellOfRaw r c))))

/-- The frame produced by groupby([Year, Season]).sum() on line 19: one row
per key of the categorical key product, each column summed per group. -/
def summedTable (t : RawTable) (n : ℤ) : GTable :=
  (prodKeys (selectedAll t n)).map (fun k => (k, summedRow t n k))

/-- Embedding of .dropna() on line 19: drop every row holding a null. -/
def dropnaAny (g : GTable) : GTable :=
  g.filter (fun kr => !(kr.2.any (fun p => p.2.isNan)))

/-- Sort the entries of a row by column name, as pandas sorts the columns
produced by Index.difference. -/
def sortAssoc (r : List (String × PF)) : List (String × PF) :=
  List.insertionSort (fun p q => p.1 ≤ q.1) r

/-- Embedding of grouped[grouped.columns.difference(basic_headers)] on
line 21: keep only non-basic columns, in sorted column order. -/
def colRestrict (g : GTable) : GTable :=
  g.map (fun kr =>
    (kr.1, sortAssoc (kr.2.filter (fun p => decide (p.1 ∉ basicHeaders)))))

/-- Embedding of only_genres_for_top_n (lines 9-21). -/
def onlyGenresForTopN (t : RawTable) (n : ℤ) : GTable :=
  colRestrict (dropnaAny (summedTable t n))

/-- Embedding of df.dropna(subset=[Score]) on line 29 of analyze_trend. -/
def dropNullScore (t : RawTable) : RawTable :=
  ⟨t.gcols, t.rows.filter (fun r => !r.score.isNan)⟩

/-- The skipna sum of a row across all of its columns (df.sum(axis=1)). -/
def rowSum (r : List (String × PF)) : PF :=
  sumPF (r.map Prod.snd)

/-- One row of normalize (line 46): every value divided by the row sum. -/
def normalizeRow (r : List (String × PF)) : List (String × PF) :=
  r.map (fun p => (p.1, pdiv p.2 (rowSum r)))

/-- Embedding of normalize (lines 42-46): df.div(df.sum(axis=1), axis=0). -/
def normalizeT (g : GTable) : GTable :=
  g.map (fun kr => (kr.1, normalizeRow kr.2))

/-- The column of values stored under name c, one per row of the frame. -/
def colVals (g : GTable) (c : String) : List PF :=
  g.map (fun kr => lookupCell kr.2 c)

/-- Embedding of drop_if (lines 49-54) for a column-wise condition: a column
whose value list satisfies the condition is removed from every row. -/
def dropIf (cond : List PF → Bool) (g : GTable) : GTable :=
  g.map (fun kr => (kr.1, kr.2.filter (fun p => !cond (colVals g p.1))))

/-- Embedding of df.tail(n): the last n rows of the frame. -/
def tailN (n : ℕ) (g : GTable) : GTable :=
  g.drop (g.length - n)

/-- The number of rows of a column whose value is at least 1, the quantity
(df >= 1).sum() of line 70. -/
def countGe1 (l : List PF) : ℕ :=
  l.countP pfGe1

/-- The condition not_minimum_requirement of lines 65-70, with the season
count and the fraction (0.4 in the source) as parameters. -/
def notMinimumRequirement (count : ℕ) (f : ℚ) (l : List PF) : Bool :=
  decide (((countGe1 l : ℕ) : ℚ) < f * (count : ℚ))

/-- The consistency-filter stage of plot_trend (lines 61-71): restrict to
the last min(window, length) rows and drop every genre column that fails
the minimum requirement there.  The source instantiates window = 20 and
fraction = 2/5. -/
def consistencyFilter (window : ℕ) (f : ℚ) (g : GTable) : GTable :=
  let count := min window g.length
  dropIf (notMinimumRequirement count f) (tailN count g)

/-- True when the scalar is a nonnegative number. -/
def PF.isNonnegNum : PF → Bool
  | PF.num q => decide (0 ≤ q)
  | _ => false

/-- The column names present in some row of the frame. -/
def colNames (g : GTable) : List String :=
  (g.map (fun kr => kr.2.map Prod.fst)).flatten.dedup

/-- The numeric scores of the rows, in row order, nulls excluded. -/
def scoresOf (rows : List RawRow) : List ℚ :=
  rows.filterMap (fun r => match r.score with
    | PF.num q => some q
    | _ => none)

/-- The Nth largest score of a group of rows (1-indexed, counted with
multiplicity over the non-null scores), when the group has that many
non-null scores. -/
def nthLargestScore (n : ℤ) (rows : List RawRow) : Option ℚ :=
  let s := List.insertionSort (· ≤ ·) (scoresOf rows)
  if 1 ≤ n ∧ n.toNat ≤ s.length then s.get? (s.length - n.toNat) else none

/-! Concrete tables used to instantiate the theorems below. -/

/-- A row with score 5 and genre counts A=1, B=0 in winter 2020. -/
def wr1 : RawRow := ⟨PF.num 5, 2020, Season.winter, [("A", PF.num 1), ("B", PF.num 0)]⟩

/-- A row with score 5 and genre counts A=0, B=1 in winter 2020. -/
def wr2 : RawRow := ⟨PF.num 5, 2020, Season.winter, [("A", PF.num 0), ("B", PF.num 1)]⟩

/-- A row with score 3 and genre counts A=1, B=1 in winter 2020. -/
def wr3 : RawRow := ⟨PF.num 3, 2020, Season.winter, [("A", PF.num 1), ("B", PF.num 1)]⟩

/-- A three-row partition whose top score 5 is shared by two rows. -/
def wpart : List RawRow := [wr1, wr2, wr3]

/-- A two-row, one-partition table realising the aggregation example of the
spec: rows (A=1, B=0) and (A=0, B=1) in the same season. -/
def wtab : RawTable := ⟨["A", "B"], [wr1, wr2]⟩

/-- A table whose partitions arrive out of chronological order:
(2020, fall), (2021, winter), (2020, winter). -/
def wtabScrambled : RawTable :=
  ⟨["A"],
    [⟨PF.num 8, 2020, Season.fall, [("A", PF.num 1)]⟩,
     ⟨PF.num 6, 2021, Season.winter, [("A", PF.num 1)]⟩,
     ⟨PF.num 7, 2020, Season.winter, [("A", PF.num 1)]⟩]⟩

/-- A single aggregated row used by one partition of wtenT. -/
def wgrow (a b : ℚ) (i : ℤ) : PKey × List (String × PF) :=
  ((i, Season.winter), [("A", PF.num a), ("B", PF.num b)])

/-- Ten aggregated partitions in which genre A has a nonzero count in
exactly 4 of them and genre B in exactly 3 of them. -/
def wtenT : GTable :=
  [wgrow 1 0 1, wgrow 1 0 2, wgrow 1 0 3, wgrow 1 1 4, wgrow 0 1 5,
   wgrow 0 1 6, wgrow 0 0 7, wgrow 0 0 8, wgrow 0 0 9, wgrow 0 0 10]

/-- A row whose Score is null (NaN). -/
def wrNull : RawRow := ⟨PF.nan, 2020, Season.winter, [("A", PF.num 1), ("B", PF.num 1)]⟩

/-- A table holding a null-score row next to the two scored rows. -/
def wtabNull : RawTable := ⟨["A", "B"], [wrNull, wr1, wr2]⟩

/-- The row (A=2, B=2, C=0) of the Normalizer example. -/
def wrow220 : List (String × PF) :=
  [("A", PF.num 2), ("B", PF.num 2), ("C", PF.num 0)]

/-- An all-zero row, whose normalization must be all-NaN. -/
def wrowZero : List (String × PF) := [("A", PF.num 0), ("B", PF.num 0)]

/-- An already-normalized row: its values sum to 1. -/
def wrowHalf : List (String × PF) :=
  [("A", PF.num (1/2)), ("B", PF.num (1/2))]

/-! Helper lemmas about association-list rows. -/

theorem find?_filter_keep (r : List (String × PF)) (keep : String → Bool)
    (c : String) (hc : keep c = true) :
    (r.filter (fun p => keep p.1)).find? (fun p => decide (p.1 = c)) =
      r.find? (fun p => decide (p.1 = c)) := by
  induction r with
  | nil => rfl
  | cons p rest ih =>
    by_cases hpc : p.1 = c
    · have hkp : keep p.1 = true := by rw [hpc]; exact hc
      rw [List.filter_cons, if_pos hkp, List.find?_cons_of_pos, List.find?_cons_of_pos]
      · simp [hpc]
      · simp [hpc]
    · have hfind : ∀ l : List (String × PF),
          List.find? (fun p => decide (p.1 = c)) (p :: l) =
            List.find? (fun p => decide (p.1 = c)) l := by
        intro l
        exact List.find?_cons_of_neg _ (by simp [hpc])
      by_cases hkp : keep p.1 = true
      · rw [List.filter_cons, if_pos hkp, hfind, hfind, ih]
      · rw [List.filter_cons, if_neg hkp, hfind, ih]

theorem eq_of_fst_eq_of_nodup {l : List (String × PF)}
    (hn : (l.map Prod.fst).Nodup) {p q : String × PF}
    (hp : p ∈ l) (hq : q ∈ l) (h : p.1 = q.1) : p = q :=
  List.inj_on_of_nodup_map hn hp hq h

theorem find?_eq_of_perm_nodup {l l2 : List (String × PF)}
    (hperm : l2.Perm l) (hn : (l.map Prod.fst).Nodup) (c : String) :
    l2.find? (fun p => decide (p.1 = c)) = l.find? (fun p => decide (p.1 = c)) := by
  cases h : l.find? (fun p => decide (p.1 = c)) with
  | none =>
    rw [List.find?_eq_none] at h ⊢
    intro p hp
    exact h p (hperm.mem_iff.mp hp)
  | some p0 =>
    have hp0l : p0 ∈ l := List.mem_of_find?_eq_some h
    have hp0c : p0.1 = c := by
      have := List.find?_some h
      simpa using this
    cases h2 : l2.find? (fun p => decide (p.1 = c)) with
    | none =>
      rw [List.find?_eq_none] at h2
      exact absurd (by simpa using h2 p0 (hperm.mem_iff.mpr hp0l)) (by simp [hp0c])
    | some p1 =>
      have hp1l : p1 ∈ l := hperm.mem_iff.mp (List.mem_of_find?_eq_some h2)
      have hp1c : p1.1 = c := by
        have := List.find?_some h2
        simpa using this
      rw [eq_of_fst_eq_of_nodup hn hp1l hp0l (hp1c.trans hp0c.symm)]

theorem find?_map_pairs (cols : List String) (v : String → PF) (c : String)
    (hc : c ∈ cols) :
    (cols.map (fun x => (x, v x))).find? (fun p => decide (p.1 = c)) =
      some (c, v c) := by
  induction cols with
  | nil => cases hc
  | cons x rest ih =>
    by_cases hxc : x = c
    · subst hxc
      simp [List.find?_cons]
    · have hcr : c ∈ rest := by
        cases hc with
        | head => exact absurd rfl hxc
        | tail _ h => exact h
      simp [List.find?_cons, hxc, ih hcr]

theorem lookupCell_sortAssoc {r : List (String × PF)}
    (hn : (r.map Prod.fst).Nodup) (c : String) :
    lookupCell (sortAssoc r) c = lookupCell r c := by
  unfold lookupCell sortAssoc
  rw [find?_eq_of_perm_nodup (List.perm_insertionSort _ r) hn]

theorem map_fst_filter_keep (r : List (String × PF)) (keep : String → Bool) :
    ((r.filter (fun p => keep p.1)).map Prod.fst) = (r.map Prod.fst).filter keep := by
  rw [List.filter_map]
  rfl

/-! Helper lemmas about the skipna sum. -/

theorem sumPF_nil : sumPF [] = PF.num 0 := rfl

theorem sumPF_cons_num (q : ℚ) (rest : List PF) :
    sumPF (PF.num q :: rest) = ieeeAdd (PF.num q) (sumPF rest) := rfl

theorem sumPF_cons_nan (rest : List PF) :
    sumPF (PF.nan :: rest) = sumPF rest := rfl

theorem sumPF_num {l : List PF} (h : ∀ v ∈ l, v.isNum = true) :
    sumPF l = PF.num ((l.map pfToQ).sum) := by
  induction l with
  | nil => rfl
  | cons v rest ih =>
    have hv : v.isNum = true := h v (List.mem_cons_self v rest)
    cases v with
    | num q =>
      rw [sumPF_cons_num, ih (fun w hw => h w (List.mem_cons_of_mem _ hw))]
      simp [ieeeAdd, pfToQ]
    | nan => cases hv
    | inf => cases hv
    | ninf => cases hv

theorem sumPF_finite {l : List PF}
    (h : ∀ v ∈ l, v.isNan = true ∨ v.isNum = true) :
    ∃ q, sumPF l = PF.num q := by
  induction l with
  | nil => exact ⟨0, rfl⟩
  | cons v rest ih =>
    obtain ⟨q, hq⟩ := ih (fun w hw => h w (List.mem_cons_of_mem _ hw))
    cases hv : v with
    | nan => exact ⟨q, by rw [sumPF_cons_nan, hq]⟩
    | num a => exact ⟨a + q, by rw [sumPF_cons_num, hq]; simp [ieeeAdd]⟩
    | inf =>
      have := h v (List.mem_cons_self v rest)
      rw [hv] at this
      simp [PF.isNan, PF.isNum] at this
    | ninf =>
      have := h v (List.mem_cons_self v rest)
      rw [hv] at this
      simp [PF.isNan, PF.isNum] at this

theorem all_zero_of_sum_zero {l : List ℚ} (hnn : ∀ x ∈ l, 0 ≤ x)
    (hs : l.sum = 0) : ∀ x ∈ l, x = 0 := by
  induction l with
  | nil => intro x hx; cases hx
  | cons a rest ih =>
    have ha : 0 ≤ a := hnn a (List.mem_cons_self a rest)
    have hrest : 0 ≤ rest.sum :=
      List.sum_nonneg (fun x hx => hnn x (List.mem_cons_of_mem _ hx))
    rw [List.sum_cons] at hs
    have ha0 : a = 0 := le_antisymm (by linarith) ha
    have hr0 : rest.sum = 0 := by linarith
    intro x hx
    cases hx with
    | head => exact ha0
    | tail _ hx => exact ih (fun y hy => hnn y (List.mem_cons_of_mem _ hy)) hr0 x hx

/-! Helper lemmas about keys, seasons and the group-key product. -/

theorem mem_allSeasons (s : Season) : s ∈ allSeasons := by
  cases s <;> simp [allSeasons]

theorem keyLt_irrefl (k : PKey) : ¬ keyLt k k := by
  intro h
  rcases h with h | ⟨_, h⟩
  · exact lt_irrefl _ h
  · exact lt_irrefl _ h

theorem pairwise_sortedYears (rows : List RawRow) :
    (sortedYears rows).Pairwise (· < ·) := by
  have hsorted : (sortedYears rows).Pairwise (· ≤ ·) :=
    List.sorted_insertionSort _ _
  have hnodup : (sortedYears rows).Nodup :=
    ((List.perm_insertionSort _ _).nodup_iff).mpr (List.nodup_dedup _)
  exact (hsorted.and hnodup).imp (fun h => lt_of_le_of_ne h.1 h.2)

theorem pairwise_seasons :
    allSeasons.Pairwise (fun s1 s2 => seasonOrd s1 < seasonOrd s2) := by
  decide

theorem pairwise_keyProd (ys : List ℤ) (h : ys.Pairwise (· < ·)) :
    (ys.flatMap (fun y => allSeasons.map (fun s => (y, s)))).Pairwise keyLt := by
  induction ys with
  | nil => simp
  | cons y ys ih =>
    rw [List.pairwise_cons] at h
    rw [List.flatMap_cons, List.pairwise_append]
    refine ⟨?_, ih h.2, ?_⟩
    · rw [List.pairwise_map]
      exact pairwise_seasons.imp (fun hlt => Or.inr ⟨rfl, hlt⟩)
    · intro a ha b hb
      obtain ⟨s1, _, rfl⟩ := List.mem_map.mp ha
      obtain ⟨y2, hy2, s2, _, rfl⟩ := by
        simpa [List.mem_flatMap, List.mem_map] using hb
      exact Or.inl (h.1 y2 hy2)

theorem pairwise_prodKeys (rows : List RawRow) :
    (prodKeys rows).Pairwise keyLt :=
  pairwise_keyProd _ (pairwise_sortedYears rows)

theorem nodup_prodKeys (rows : List RawRow) : (prodKeys rows).Nodup :=
  (pairwise_prodKeys rows).imp
    (fun h => by rintro rfl; exact keyLt_irrefl _ h)

theorem mem_prodKeys {rows : List RawRow} {k : PKey} :
    k ∈ prodKeys rows ↔ k.1 ∈ sortedYears rows := by
  constructor
  · intro h
    obtain ⟨y, hy, s, _, rfl⟩ := by
      simpa [prodKeys, List.mem_flatMap, List.mem_map] using h
    exact hy
  · intro h
    refine List.mem_flatMap.mpr ⟨k.1, h, ?_⟩
    exact List.mem_map.mpr ⟨k.2, mem_allSeasons k.2, rfl⟩

theorem mem_sortedYears {rows : List RawRow} {y : ℤ} :
    y ∈ sortedYears rows ↔ ∃ r ∈ rows, r.year = y := by
  unfold sortedYears
  rw [(List.perm_insertionSort _ _).mem_iff, List.mem_dedup]
  simp [List.mem_map]

/-! Helper lemmas about row selection. -/

theorem mem_of_mem_nlargestAll {n : ℤ} {rows : List RawRow} {r : RawRow}
    (h : r ∈ nlargestAll n rows) : r ∈ rows :=
  List.mem_of_mem_filter h

theorem score_not_nan_of_mem_nlargestAll {n : ℤ} {rows : List RawRow}
    {r : RawRow} (h : r ∈ nlargestAll n rows) : r.score.isNan = false := by
  have := List.of_mem_filter h
  simp only [Bool.and_eq_true, Bool.not_eq_true'] at this
  exact this.1

theorem mem_of_mem_partitionRows {rows : List RawRow} {k : PKey} {r : RawRow}
    (h : r ∈ partitionRows rows k) : r ∈ rows :=
  List.mem_of_mem_filter h

theorem key_of_mem_partitionRows {rows : List RawRow} {k : PKey} {r : RawRow}
    (h : r ∈ partitionRows rows k) : r.year = k.1 ∧ r.season = k.2 := by
  have := List.of_mem_filter h
  simpa using this

theorem mem_partitionRows {rows : List RawRow} {k : PKey} {r : RawRow} :
    r ∈ partitionRows rows k ↔ r ∈ rows ∧ r.year = k.1 ∧ r.season = k.2 := by
  unfold partitionRows
  rw [List.mem_filter]
  simp

theorem selectedAll_subset {t : RawTable} {n : ℤ} {r : RawRow}
    (h : r ∈ selectedAll t n) : r ∈ t.rows := by
  obtain ⟨k, _, hr⟩ := List.mem_flatMap.mp h
  exact mem_of_mem_partitionRows (mem_of_mem_nlargestAll hr)

theorem mem_selectedAll {t : RawTable} {n : ℤ} {r : RawRow} :
    r ∈ selectedAll t n ↔
      ∃ k ∈ prodKeys t.rows, r ∈ nlargestAll n (partitionRows t.rows k) :=
  List.mem_flatMap

/-! Helper lemmas for the tie-inclusion property of nlargest. -/

theorem countP_le_of_sorted_get :
    ∀ (l : List ℚ), l.Pairwise (· ≤ ·) →
      ∀ (i : ℕ) (q : ℚ), l.get? i = some q →
        l.countP (fun x => decide (q < x)) ≤ l.length - i - 1 := by
  intro l
  induction l with
  | nil => intro _ i q h; cases h
  | cons a rest ih =>
    intro hs i q hget
    rw [List.pairwise_cons] at hs
    cases i with
    | zero =>
      rw [List.get?_cons_zero] at hget
      injection hget with hqa
      subst hqa
      rw [List.countP_cons]
      have hfa : (decide (a < a) : Bool) = false := by simp
      rw [hfa]
      have hle := List.countP_le_length (l := rest) (p := fun x => decide (a < x))
      simp only [List.length_cons, Bool.false_eq_true, if_false]
      omega
    | succ i =>
      rw [List.get?_cons_succ] at hget
      have hq : q ∈ rest := List.get?_mem hget
      have haq : a ≤ q := hs.1 q hq
      rw [List.countP_cons]
      have hna : (decide (q < a) : Bool) = false := by
        simp [not_lt_of_ge haq]
      rw [hna]
      have := ih hs.2 i q hget
      simp only [List.length_cons, Bool.false_eq_true, if_false]
      omega

theorem scoresOf_cons_num {r : RawRow} {a : ℚ} (rest : List RawRow)
    (hsc : r.score = PF.num a) : scoresOf (r :: rest) = a :: scoresOf rest := by
  unfold scoresOf
  rw [List.filterMap_cons, hsc]

theorem countP_scores (rows : List RawRow)
    (h : ∀ r ∈ rows, r.score.isNum = true) (q : ℚ) :
    (scoresOf rows).countP (fun x => decide (q < x)) =
      rows.countP (fun r => pfGtB r.score (PF.num q)) := by
  induction rows with
  | nil => rfl
  | cons r rest ih =>
    have hr : r.score.isNum = true := h r (List.mem_cons_self r rest)
    have ihr := ih (fun w hw => h w (List.mem_cons_of_mem _ hw))
    cases hsc : r.score with
    | num a =>
      rw [scoresOf_cons_num rest hsc]
      simp only [List.countP_cons, hsc, pfGtB, ihr]
    | nan => rw [hsc] at hr; cases hr
    | inf => rw [hsc] at hr; cases hr
    | ninf => rw [hsc] at hr; cases hr

theorem length_scoresOf (rows : List RawRow)
    (h : ∀ r ∈ rows, r.score.isNum = true) :
    (scoresOf rows).length = rows.length := by
  induction rows with
  | nil => rfl
  | cons r rest ih =>
    have hr : r.score.isNum = true := h r (List.mem_cons_self r rest)
    cases hsc : r.score with
    | num a =>
      rw [scoresOf_cons_num rest hsc]
      simp only [List.length_cons]
      rw [ih (fun w hw => h w (List.mem_cons_of_mem _ hw))]
    | nan => rw [hsc] at hr; cases hr
    | inf => rw [hsc] at hr; cases hr
    | ninf => rw [hsc] at hr; cases hr

/-- C1: tie-inclusion in the Top-N Selector (nlargest with keep=all,
line 17).  Over a partition whose rows all carry a numeric score (the
pipeline drops null scores before selecting), for every N at least 1:
every row whose score equals the Nth-largest score of the partition is in
the selected set, even when that makes the selected set larger than N; and
a partition with fewer than N rows is selected in full. -/
theorem c1_tie_inclusion (part : List RawRow) (n : ℤ) (h1 : 1 ≤ n)
    (hq : ∀ r ∈ part, r.score.isNum = true) :
    (∀ r ∈ part, ∀ q : ℚ, r.score = PF.num q →
        nthLargestScore n part = some q → r ∈ nlargestAll n part) ∧
      ((part.length : ℤ) < n → nlargestAll n part = part) := by
  constructor
  · intro r hr q hscore hnth
    unfold nthLargestScore at hnth
    by_cases hcond :
        1 ≤ n ∧ n.toNat ≤ (List.insertionSort (· ≤ ·) (scoresOf part)).length
    · rw [if_pos hcond] at hnth
      set s := List.insertionSort (· ≤ ·) (scoresOf part) with hs
      have hsort : s.Pairwise (· ≤ ·) := List.sorted_insertionSort _ _
      have hcount : s.countP (fun x => decide (q < x)) ≤
          s.length - (s.length - n.toNat) - 1 :=
        countP_le_of_sorted_get s hsort _ q hnth
      have hperm : s.Perm (scoresOf part) := List.perm_insertionSort _ _
      have hc2 : (scoresOf part).countP (fun x => decide (q < x)) =
          s.countP (fun x => decide (q < x)) := (hperm.countP_eq _).symm
      have hc3 := countP_scores part hq q
      rw [nlargestAll, List.mem_filter]
      refine ⟨hr, ?_⟩
      have hnn : r.score.isNan = false := by rw [hscore]; rfl
      have hcnt : ((part.countP (fun r2 => pfGtB r2.score r.score) : ℕ) : ℤ) < n := by
        rw [hscore]
        have hnt := hcond.2
        omega
      simp [hnn, hcnt]
    · rw [if_neg hcond] at hnth
      cases hnth
  · intro hlen
    apply List.filter_eq_self.mpr
    intro r hr
    have hnn : r.score.isNan = false := by
      have hin := hq r hr
      cases hsc : r.score <;> rw [hsc] at hin <;> first | rfl | cases hin
    have hcnt : ((part.countP (fun r2 => pfGtB r2.score r.score) : ℕ) : ℤ) < n := by
      have := List.countP_le_length (l := part) (p := fun r2 => pfGtB r2.score r.score)
      omega
    simp [hnn, hcnt]

/-- C1 witness: in the partition with scores 5, 5, 3 and N = 1 the second
score-5 row ties with the first at the boundary and is selected too (the
selected set has 2 rows, larger than N = 1), and with N = 5 the partition
of 3 rows is selected in full. -/
theorem c1_witness :
    wr2 ∈ nlargestAll 1 wpart ∧ nlargestAll 1 wpart = [wr1, wr2] ∧
      nlargestAll 5 wpart = wpart :=
  ⟨(c1_tie_inclusion wpart 1 (by decide) (by decide)).1 wr2 (by decide) 5 rfl
      (by decide),
    by decide,
    (c1_tie_inclusion wpart 5 (by decide) (by decide)).2 (by decide)⟩

/-! Helper lemmas about normalization. -/

theorem pdiv_one (v : PF) : pdiv v (PF.num 1) = v := by
  cases v with
  | num a => simp [pdiv]
  | nan => rfl
  | inf => simp [pdiv]
  | ninf => simp [pdiv]

theorem normalizeRow_sum_one {r : List (String × PF)}
    (hsum : rowSum r = PF.num 1) : normalizeRow r = r := by
  unfold normalizeRow
  rw [hsum]
  have h : r.map (fun p : String × PF => (p.1, pdiv p.2 (PF.num 1))) = r.map id :=
    List.map_congr_left (fun p _ => by rw [pdiv_one]; rfl)
  rw [h, List.map_id]

theorem list_sum_div (l : List ℚ) (a : ℚ) :
    (l.map (fun x => x / a)).sum = l.sum / a := by
  induction l with
  | nil => simp
  | cons x rest ih => simp [ih, add_div]

theorem isNum_of_isNonnegNum {v : PF} (h : v.isNonnegNum = true) :
    v.isNum = true := by
  cases v with
  | num q => rfl
  | nan => cases h
  | inf => cases h
  | ninf => cases h

theorem pfToQ_nonneg_of_isNonnegNum {v : PF} (h : v.isNonnegNum = true) :
    0 ≤ pfToQ v := by
  cases v with
  | num q => simpa [PF.isNonnegNum, pfToQ] using h
  | nan => cases h
  | inf => cases h
  | ninf => cases h

/-- C3: Normalizer postcondition (lines 42-46).  Every row of the input
appears in the output with each value divided by that row's sum across all
columns, and a (count-valued, hence nonnegative) row whose sum is zero
comes out as NaN in every column; the NaN row is part of the returned
table, no error is raised. -/
theorem c3_normalizer_postcondition (g : GTable) (k : PKey)
    (r : List (String × PF)) (hkr : (k, r) ∈ g) :
    ((k, normalizeRow r) ∈ normalizeT g) ∧
      (∀ c v, (c, v) ∈ r → (c, pdiv v (rowSum r)) ∈ normalizeRow r) ∧
      ((∀ p ∈ r, p.2.isNonnegNum = true) → rowSum r = PF.num 0 →
        ∀ p ∈ normalizeRow r, p.2 = PF.nan) := by
  refine ⟨List.mem_map.mpr ⟨(k, r), hkr, rfl⟩, ?_, ?_⟩
  · intro c v hcv
    exact List.mem_map.mpr ⟨(c, v), hcv, rfl⟩
  · intro hnn hsum p hp
    obtain ⟨p0, hp0, rfl⟩ := List.mem_map.mp hp
    have hallnum : ∀ v ∈ r.map Prod.snd, v.isNum = true := by
      intro v hv
      obtain ⟨p1, hp1, rfl⟩ := List.mem_map.mp hv
      exact isNum_of_isNonnegNum (hnn p1 hp1)
    have hsum2 : rowSum r = PF.num (((r.map Prod.snd).map pfToQ).sum) := by
      unfold rowSum
      exact sumPF_num hallnum
    have hsz : (((r.map Prod.snd).map pfToQ).sum) = 0 := by
      rw [hsum2] at hsum
      injection hsum
    have hzero : ∀ x ∈ (r.map Prod.snd).map pfToQ, x = 0 := by
      apply all_zero_of_sum_zero ?_ hsz
      intro x hx
      obtain ⟨v, hv, rfl⟩ := List.mem_map.mp hx
      obtain ⟨p1, hp1, rfl⟩ := List.mem_map.mp hv
      exact pfToQ_nonneg_of_isNonnegNum (hnn p1 hp1)
    have h2 : pfToQ p0.2 = 0 :=
      hzero _ (List.mem_map.mpr ⟨p0.2, List.mem_map.mpr ⟨p0, hp0, rfl⟩, rfl⟩)
    have h3 : p0.2 = PF.num 0 := by
      have h0 := hnn p0 hp0
      cases hv2 : p0.2 with
      | num q =>
        rw [hv2] at h2
        simp only [pfToQ] at h2
        rw [h2]
      | nan => rw [hv2] at h0; cases h0
      | inf => rw [hv2] at h0; cases h0
      | ninf => rw [hv2] at h0; cases h0
    show pdiv p0.2 (rowSum r) = PF.nan
    rw [h3, hsum]
    simp [pdiv]

/-- C3 witness: the row (A=2, B=2, C=0) normalizes to exactly
(A=1/2, B=1/2, C=0), and every entry of the normalized all-zero row is NaN
while that row is still a returned row of the table. -/
theorem c3_witness :
    normalizeRow wrow220 =
        [("A", PF.num (1/2)), ("B", PF.num (1/2)), ("C", PF.num 0)] ∧
      (∀ p ∈ normalizeRow wrowZero, p.2 = PF.nan) ∧
      ((0, Season.winter), normalizeRow wrowZero) ∈
        normalizeT [((0, Season.winter), wrowZero)] :=
  ⟨by decide!,
    (c3_normalizer_postcondition [((0, Season.winter), wrowZero)]
        (0, Season.winter) wrowZero (by decide)).2.2 (by decide) (by decide!),
    (c3_normalizer_postcondition [((0, Season.winter), wrowZero)]
        (0, Season.winter) wrowZero (by decide)).1⟩

/-- C9: Normalizer idempotence (lines 42-46).  A row whose values already
sum to 1 is returned unchanged (exactly, in the exact-rational embedding of
the float arithmetic), and re-running the Normalizer on any numeric row
with nonzero sum changes nothing the second time. -/
theorem c9_normalizer_idempotent (r : List (String × PF)) :
    (rowSum r = PF.num 1 → normalizeRow r = r) ∧
      ((∀ p ∈ r, p.2.isNum = true) → rowSum r ≠ PF.num 0 →
        normalizeRow (normalizeRow r) = normalizeRow r) := by
  constructor
  · exact normalizeRow_sum_one
  · intro hnum hne
    have hallnum : ∀ v ∈ r.map Prod.snd, v.isNum = true := by
      intro v hv
      obtain ⟨p1, hp1, rfl⟩ := List.mem_map.mp hv
      exact hnum p1 hp1
    have hsum : rowSum r = PF.num (((r.map Prod.snd).map pfToQ).sum) := by
      unfold rowSum
      exact sumPF_num hallnum
    have hs0 : (((r.map Prod.snd).map pfToQ).sum) ≠ 0 := by
      intro h0
      exact hne (by rw [hsum, h0])
    have hrows : normalizeRow r =
        r.map (fun p => (p.1, PF.num (pfToQ p.2 / ((r.map Prod.snd).map pfToQ).sum))) := by
      unfold normalizeRow
      apply List.map_congr_left
      intro p hp
      have hp2 := hnum p hp
      cases hv : p.2 with
      | num q =>
        rw [hsum]
        simp only [pdiv, pfToQ]
        rw [if_neg hs0]
      | nan => rw [hv] at hp2; cases hp2
      | inf => rw [hv] at hp2; cases hp2
      | ninf => rw [hv] at hp2; cases hp2
    have h1 : rowSum (normalizeRow r) = PF.num 1 := by
      rw [hrows]
      unfold rowSum
      rw [List.map_map]
      have hnum2 : ∀ v ∈ r.map
          (fun p : String × PF =>
            PF.num (pfToQ p.2 / ((r.map Prod.snd).map pfToQ).sum)),
          v.isNum = true := by
        intro v hv
        obtain ⟨p1, _, rfl⟩ := List.mem_map.mp hv
        rfl
      rw [show (Prod.snd ∘ fun p : String × PF =>
          (p.1, PF.num (pfToQ p.2 / ((r.map Prod.snd).map pfToQ).sum))) =
          (fun p : String × PF =>
            PF.num (pfToQ p.2 / ((r.map Prod.snd).map pfToQ).sum)) from rfl]
      rw [sumPF_num hnum2]
      rw [List.map_map]
      rw [show (pfToQ ∘ fun p : String × PF =>
          PF.num (pfToQ p.2 / ((r.map Prod.snd).map pfToQ).sum)) =
          (fun p : String × PF =>
            pfToQ p.2 / ((r.map Prod.snd).map pfToQ).sum) from rfl]
      have hcomp : (r.map (fun p : String × PF =>
          pfToQ p.2 / ((r.map Prod.snd).map pfToQ).sum)) =
          ((r.map Prod.snd).map pfToQ).map
            (fun x => x / ((r.map Prod.snd).map pfToQ).sum) := by
        rw [List.map_map, List.map_map]
        rfl
      rw [hcomp, list_sum_div, div_self hs0]
    rw [normalizeRow_sum_one h1]

/-- C9 witness: the already-normalized row (A=1/2, B=1/2) is unchanged by
the Normalizer, and normalizing (A=2, B=2, C=0) twice equals normalizing
it once. -/
theorem c9_witness :
    normalizeRow wrowHalf = wrowHalf ∧
      normalizeRow (normalizeRow wrow220) = normalizeRow wrow220 :=
  ⟨(c9_normalizer_idempotent wrowHalf).1 (by decide!),
    (c9_normalizer_idempotent wrow220).2 (by decide) (by decide!)⟩

/-- C10: frame property of drop_if (lines 49-54).  For every column-wise
condition, the output has exactly the input's rows (same keys, same count),
and every retained column (one whose condition is false) keeps the exact
value list it had in the input: whole columns are removed and nothing else
changes. -/
theorem c10_drop_if_frame (cond : List PF → Bool) (g : GTable) :
    ((dropIf cond g).map Prod.fst = g.map Prod.fst ∧
      (dropIf cond g).length = g.length) ∧
      (∀ c, cond (colVals g c) = false →
        colVals (dropIf cond g) c = colVals g c) := by
  refine ⟨⟨?_, ?_⟩, ?_⟩
  · unfold dropIf
    rw [List.map_map]
    rfl
  · unfold dropIf
    rw [List.length_map]
  · intro c hc
    unfold colVals dropIf
    rw [List.map_map]
    apply List.map_congr_left
    intro kr _
    show lookupCell (kr.2.filter fun p => !cond (colVals g p.1)) c = lookupCell kr.2 c
    unfold lookupCell
    rw [find?_filter_keep kr.2 (fun s => !cond (colVals g s)) c
      (by show (!cond (colVals g c)) = true; rw [hc]; rfl)]

/-- C10 witness: dropping the inconsistent columns of the ten-partition
table preserves its keys and row count and leaves the retained column A
with exactly the values it had before. -/
theorem c10_witness :
    (dropIf (notMinimumRequirement 10 (2/5)) wtenT).map Prod.fst =
        wtenT.map Prod.fst ∧
      colVals (dropIf (notMinimumRequirement 10 (2/5)) wtenT) "A" =
        colVals wtenT "A" :=
  ⟨(c10_drop_if_frame (notMinimumRequirement 10 (2/5)) wtenT).1.1,
    (c10_drop_if_frame (notMinimumRequirement 10 (2/5)) wtenT).2 "A" (by decide!)⟩

/-- C8: null-score exclusion.  For every input table no row whose Score is
null appears in the output of the Top-N selection stage (nlargest ignores
NaN scores), and the pipeline additionally guarantees this by dropping
null-score rows (line 29) before selecting: after that filter no row has a
null score at all. -/
theorem c8_null_score_exclusion :
    (∀ (t : RawTable) (n : ℤ) (r : RawRow), r ∈ selectedAll t n →
        r.score.isNan = false) ∧
      (∀ (t : RawTable) (r : RawRow), r ∈ (dropNullScore t).rows →
        r.score.isNan = false) := by
  constructor
  · intro t n r hr
    obtain ⟨k, _, hsel⟩ := mem_selectedAll.mp hr
    exact score_not_nan_of_mem_nlargestAll hsel
  · intro t r hr
    have h := List.of_mem_filter hr
    simpa using h

/-- C8 witness: in the table that holds a null-score row, the selected rows
have non-null scores, the null-score row itself is not selected, and the
null-score filter of the pipeline removes it. -/
theorem c8_witness :
    wr1.score.isNan = false ∧ wrNull ∉ selectedAll wtabNull 2 ∧
      wrNull ∉ (dropNullScore wtabNull).rows ∧
      wr2.score.isNan = false :=
  ⟨c8_null_score_exclusion.1 wtabNull 2 wr1 (by decide),
    by decide,
    by decide,
    c8_null_score_exclusion.2 wtabNull wr2 (by decide)⟩

/-- Helper: with a non-positive n, nlargest selects nothing. -/
theorem nlargestAll_nonpos {n : ℤ} (hn : n ≤ 0) (rows : List RawRow) :
    nlargestAll n rows = [] := by
  unfold nlargestAll
  apply List.filter_eq_nil_iff.mpr
  intro r _
  simp only [Bool.and_eq_true, decide_eq_true_eq, not_and, Bool.not_eq_true']
  intro _
  omega

/-- Helper: with a non-positive n, the selection stage is empty. -/
theorem selectedAll_nonpos (t : RawTable) {n : ℤ} (hn : n ≤ 0) :
    selectedAll t n = [] := by
  unfold selectedAll
  apply List.flatMap_eq_nil_iff.mpr
  intro k _
  exact nlargestAll_nonpos hn _

/-- C7 counterexample: contrary to the claim that a call with N at most 0
fails with InvalidArgument before producing a table, only_genres_for_top_n
performs no argument validation and returns a table: at N = 0 on a concrete
two-row table it returns normally (the empty table), and the embedded
function is total with no error path at all. -/
theorem c7_counterexample : onlyGenresForTopN wtab 0 = [] := by decide

/-- C7 amended: a call of the Top-N selection with N at most 0 does not
fail; it selects no rows at all, so only_genres_for_top_n returns an empty
table for every input. -/
theorem c7_amended (t : RawTable) (n : ℤ) (hn : n ≤ 0) :
    selectedAll t n = [] ∧ onlyGenresForTopN t n = [] := by
  have hsel : selectedAll t n = [] := selectedAll_nonpos t hn
  refine ⟨hsel, ?_⟩
  unfold onlyGenresForTopN summedTable
  rw [hsel]
  rfl

/-- C7 amended witness: at N = -3 a concrete call selects nothing and
returns the empty table. -/
theorem c7_amended_witness :
    selectedAll wtabNull (-3) = [] ∧ onlyGenresForTopN wtabNull (-3) = [] :=
  c7_amended wtabNull (-3) (by decide)

/-- Helper: a name is a column name of a frame when some row holds it. -/
theorem mem_colNames {g : GTable} {c : String} :
    c ∈ colNames g ↔ ∃ kr ∈ g, c ∈ kr.2.map Prod.fst := by
  unfold colNames
  rw [List.mem_dedup, List.mem_flatten]
  constructor
  · rintro ⟨l, hl, hc⟩
    obtain ⟨kr, hkr, rfl⟩ := List.mem_map.mp hl
    exact ⟨kr, hkr, hc⟩
  · rintro ⟨kr, hkr, hc⟩
    exact ⟨kr.2.map Prod.fst, List.mem_map.mpr ⟨kr, hkr, rfl⟩, hc⟩

/-- Helper: the names of a dropIf-filtered row are the filtered names. -/
theorem names_dropIf_row (cond : List PF → Bool) (g : GTable)
    (row : List (String × PF)) :
    (row.filter (fun p => !cond (colVals g p.1))).map Prod.fst =
      (row.map Prod.fst).filter (fun s => !cond (colVals g s)) :=
  map_fst_filter_keep row (fun s => !cond (colVals g s))

/-- C2: Consistency Filter threshold (lines 61-71, with the window and the
fraction the source fixes to 20 and 0.4 kept as parameters).  Writing
count = min(window, number of partitions) and restricting to the count most
recent partitions, a genre column is retained in the output (as a whole
column) if and only if it is a column of the table and the number of those
recent partitions in which its value is at least 1 is at least
fraction * count. -/
theorem c2_consistency_threshold (window : ℕ) (f : ℚ) (g : GTable)
    (cs : List String) (hw : 1 ≤ window) (hne : g ≠ [])
    (hu : ∀ kr ∈ g, kr.2.map Prod.fst = cs) (c : String) :
    c ∈ colNames (consistencyFilter window f g) ↔
      c ∈ cs ∧
        f * ((min window g.length : ℕ) : ℚ) ≤
          (countGe1 (colVals (tailN (min window g.length) g) c) : ℚ) := by
  set count := min window g.length with hcount
  set recent := tailN count g with hrecent
  have hcle : count ≤ g.length := min_le_right _ _
  have h1c : 1 ≤ count := by
    have hg : 0 < g.length := List.length_pos.mpr hne
    exact le_min hw hg
  have hlenr : recent.length = count := by
    rw [hrecent]
    unfold tailN
    rw [List.length_drop]
    omega
  have hrne : recent ≠ [] := by
    rw [← List.length_pos, hlenr]
    omega
  have hur : ∀ kr ∈ recent, kr.2.map Prod.fst = cs := by
    intro kr hkr
    exact hu kr (List.drop_subset _ _ hkr)
  have hcf : consistencyFilter window f g =
      dropIf (notMinimumRequirement count f) recent := rfl
  rw [hcf]
  constructor
  · intro hcm
    obtain ⟨kr2, hkr2, hcn⟩ := mem_colNames.mp hcm
    obtain ⟨kr, hkr, rfl⟩ := List.mem_map.mp hkr2
    rw [show ((kr.1, kr.2.filter fun p =>
          !notMinimumRequirement count f (colVals recent p.1)) :
            PKey × List (String × PF)).2 =
        kr.2.filter (fun p => !notMinimumRequirement count f (colVals recent p.1))
        from rfl,
      names_dropIf_row, hur kr hkr, List.mem_filter] at hcn
    refine ⟨hcn.1, ?_⟩
    have h2 := hcn.2
    simp only [Bool.not_eq_true', notMinimumRequirement,
      decide_eq_false_iff_not, not_lt] at h2
    exact h2
  · rintro ⟨hcs, hge⟩
    apply mem_colNames.mpr
    obtain ⟨kr, hkr⟩ := List.exists_mem_of_ne_nil recent hrne
    refine ⟨(kr.1, kr.2.filter fun p =>
        !notMinimumRequirement count f (colVals recent p.1)),
      List.mem_map.mpr ⟨kr, hkr, rfl⟩, ?_⟩
    rw [show ((kr.1, kr.2.filter fun p =>
          !notMinimumRequirement count f (colVals recent p.1)) :
            PKey × List (String × PF)).2 =
        kr.2.filter (fun p => !notMinimumRequirement count f (colVals recent p.1))
        from rfl,
      names_dropIf_row, hur kr hkr, List.mem_filter]
    refine ⟨hcs, ?_⟩
    simp only [Bool.not_eq_true', notMinimumRequirement,
      decide_eq_false_iff_not, not_lt]
    exact hge

/-- C2 witness: over the ten recent partitions with window 10 and fraction
0.4, genre A (nonzero in exactly 4 of 10, and 4 is at least 0.4 * 10) is
retained while genre B (nonzero in exactly 3 of 10) is dropped as a whole
column. -/
theorem c2_witness :
    "A" ∈ colNames (consistencyFilter 10 (2/5) wtenT) ∧
      "B" ∉ colNames (consistencyFilter 10 (2/5) wtenT) :=
  ⟨(c2_consistency_threshold 10 (2/5) wtenT ["A", "B"] (by decide) (by decide)
      (by decide) "A").mpr ⟨by decide, by decide!⟩,
    fun h => absurd ((c2_consistency_threshold 10 (2/5) wtenT ["A", "B"]
      (by decide) (by decide) (by decide) "B").mp h).2 (by decide!)⟩

/-- Helper: projecting the first component of key-indexed rows built over a
key list gives back the key list. -/
theorem map_fst_map_pair {α β : Type} (keys : List α) (f : α → β) :
    (keys.map (fun k => (k, f k))).map Prod.fst = keys := by
  rw [List.map_map]
  have h : (Prod.fst ∘ fun k : α => (k, f k)) = id := rfl
  rw [h, List.map_id]

/-- Helper: the keys of the summed frame are the categorical key product
of the selected rows. -/
theorem keys_summedTable (t : RawTable) (n : ℤ) :
    (summedTable t n).map Prod.fst = prodKeys (selectedAll t n) := by
  unfold summedTable
  exact map_fst_map_pair (prodKeys (selectedAll t n)) _

/-- Helper: the keys of only_genres_for_top_n are those of its dropna. -/
theorem keys_colRestrict (g : GTable) :
    (colRestrict g).map Prod.fst = g.map Prod.fst := by
  unfold colRestrict
  rw [List.map_map]
  rfl

/-- Helper: the aggregated keys are pairwise chronologically increasing. -/
theorem keys_onlyGenres_pairwise (t : RawTable) (n : ℤ) :
    ((onlyGenresForTopN t n).map Prod.fst).Pairwise keyLt := by
  unfold onlyGenresForTopN
  rw [keys_colRestrict]
  have h2 : (dropnaAny (summedTable t n)).Sublist (summedTable t n) :=
    List.filter_sublist _
  have h3 := h2.map Prod.fst
  rw [keys_summedTable] at h3
  exact (pairwise_prodKeys _).sublist h3

/-- C5: chronological partition ordering.  With the fixed season ordinal
imposed by the pipeline (winter < spring < summer < fall, baked into the
Season order of the embedding), the aggregated partitions of
only_genres_for_top_n are strictly increasing by Year and then by season
ordinal, so tail-based recent-window selection takes the chronologically
last partitions; concretely, input partitions given in the order
(2020, fall), (2021, winter), (2020, winter) come out ordered
(2020, winter), (2020, fall), (2021, winter). -/
theorem c5_chronological_order :
    (∀ (t : RawTable) (n : ℤ),
        ((onlyGenresForTopN t n).map Prod.fst).Pairwise keyLt) ∧
      (onlyGenresForTopN wtabScrambled 5).map Prod.fst =
        [((2020 : ℤ), Season.winter), ((2020 : ℤ), Season.fall),
          ((2021 : ℤ), Season.winter)] :=
  ⟨keys_onlyGenres_pairwise, by decide!⟩

/-- Helper: the value looked up in a nan-or-num row is nan or num. -/
theorem lookupCell_finite {r : List (String × PF)}
    (h : ∀ p ∈ r, (p.2.isNan || p.2.isNum) = true) (c : String) :
    ((lookupCell r c).isNan || (lookupCell r c).isNum) = true := by
  unfold lookupCell
  cases hf : r.find? (fun p => decide (p.1 = c)) with
  | none => rfl
  | some p => exact h p (List.mem_of_find?_eq_some hf)

/-- Helper: groupSum of an empty group is null. -/
theorem groupSum_nil : groupSum [] = PF.nan := rfl

/-- Helper: groupSum of a nonempty group is the skipna sum. -/
theorem groupSum_ne_nil {l : List PF} (h : l ≠ []) : groupSum l = sumPF l := by
  unfold groupSum
  rw [if_neg]
  simpa [List.isEmpty_iff] using h

/-- Helper: the cells of rows of the input table are nan-or-num when every
score and genre cell of the table is. -/
theorem cellOfRaw_finite {t : RawTable} {r : RawRow}
    (hfin : ∀ r ∈ t.rows, (r.score.isNan || r.score.isNum) = true ∧
      ∀ p ∈ r.genres, (p.2.isNan || p.2.isNum) = true)
    (hr : r ∈ t.rows) (c : String) :
    ((cellOfRaw r c).isNan || (cellOfRaw r c).isNum) = true := by
  unfold cellOfRaw
  by_cases hc : c = "Score"
  · rw [if_pos hc]
    exact (hfin r hr).1
  · rw [if_neg hc]
    exact lookupCell_finite (hfin r hr).2 c

/-- C6: Aggregator null-row policy (the .dropna() of line 19).  Assuming,
as in the data model, that every raw cell is a number or null: a summed
partition row is removed by the dropna exactly when it is entirely null,
which happens exactly for the key-product partitions with no selected rows
(a nonempty partition sums to numbers in every column, so rows with any
non-null sum are kept). -/
theorem c6_null_row_policy (t : RawTable) (n : ℤ)
    (hfin : ∀ r ∈ t.rows, (r.score.isNan || r.score.isNum) = true ∧
      ∀ p ∈ r.genres, (p.2.isNan || p.2.isNum) = true)
    (k : PKey) (row : List (String × PF))
    (hmem : (k, row) ∈ summedTable t n) :
    (k, row) ∉ dropnaAny (summedTable t n) ↔ ∀ p ∈ row, p.2 = PF.nan := by
  obtain ⟨k0, hk0, heq⟩ := List.mem_map.mp hmem
  have hkk : k0 = k := congrArg Prod.fst heq
  subst hkk
  have hrow : row = ("Score" :: t.gcols).map (fun c =>
      (c, groupSum ((partitionRows (selectedAll t n) k0).map
        (fun r => cellOfRaw r c)))) := (congrArg Prod.snd heq).symm
  by_cases hpart : partitionRows (selectedAll t n) k0 = []
  · constructor
    · intro _
      intro p hp
      rw [hrow] at hp
      obtain ⟨c, _, rfl⟩ := List.mem_map.mp hp
      rw [hpart]
      rfl
    · intro _
      intro hin
      have hpred := (List.mem_filter.mp hin).2
      rw [hrow, hpart] at hpred
      simp [PF.isNan, groupSum_nil] at hpred
  · have hnum : ∀ p ∈ row, p.2.isNum = true := by
      intro p hp
      rw [hrow] at hp
      obtain ⟨c, _, rfl⟩ := List.mem_map.mp hp
      have hcells : ∀ v ∈ (partitionRows (selectedAll t n) k0).map
          (fun r => cellOfRaw r c), v.isNan = true ∨ v.isNum = true := by
        intro v hv
        obtain ⟨r, hrp, rfl⟩ := List.mem_map.mp hv
        have hrt : r ∈ t.rows :=
          selectedAll_subset (mem_of_mem_partitionRows hrp)
        have := cellOfRaw_finite hfin hrt c
        rcases Bool.or_eq_true_iff.mp this with h | h
        · exact Or.inl h
        · exact Or.inr h
      obtain ⟨q, hq⟩ := sumPF_finite hcells
      show (groupSum _).isNum = true
      rw [groupSum_ne_nil (by simpa using hpart), hq]
      rfl
    constructor
    · intro hnot
      exfalso
      apply hnot
      refine List.mem_filter.mpr ⟨hmem, ?_⟩
      simp only [Bool.not_eq_true', List.any_eq_false]
      intro p hp
      have := hnum p hp
      cases hv : p.2 with
      | num q => simp [PF.isNan]
      | nan => rw [hv] at this; cases this
      | inf => rw [hv] at this; cases this
      | ninf => rw [hv] at this; cases this
    · intro hall
      exfalso
      have hhead : ("Score", groupSum ((partitionRows (selectedAll t n) k0).map
          (fun r => cellOfRaw r "Score"))) ∈ row := by
        rw [hrow]
        exact List.mem_map.mpr ⟨"Score", List.mem_cons_self _ _, rfl⟩
      have h1 := hall _ hhead
      have h2 := hnum _ hhead
      rw [h1] at h2
      cases h2

/-- C6 witness: in the scrambled table the (2020, spring) partition has no
selected rows, its summed row is entirely null, and it is dropped by the
dropna; the (2020, winter) partition has non-null sums and is kept. -/
theorem c6_witness :
    (((2020 : ℤ), Season.spring), [("Score", PF.nan), ("A", PF.nan)]) ∉
        dropnaAny (summedTable wtabScrambled 5) ∧
      (((2020 : ℤ), Season.winter),
          [("Score", PF.num 7), ("A", PF.num 1)]) ∈
        dropnaAny (summedTable wtabScrambled 5) :=
  ⟨(c6_null_row_policy wtabScrambled 5 (by decide) ((2020 : ℤ), Season.spring)
      [("Score", PF.nan), ("A", PF.nan)] (by decide!)).mpr (by decide),
    by decide!⟩

/-- Helper: the column names of a summed row are Score then the genres. -/
theorem names_summedRow (t : RawTable) (n : ℤ) (k : PKey) :
    (summedRow t n k).map Prod.fst = "Score" :: t.gcols := by
  unfold summedRow
  exact map_fst_map_pair _ _

/-- Helper: membership inversion for only_genres_for_top_n: an output row
is the sorted, basic-header-free restriction of a summed row that survived
the dropna, at a key of the categorical key product. -/
theorem mem_onlyGenres_inv {t : RawTable} {n : ℤ}
    {kr : PKey × List (String × PF)} (h : kr ∈ onlyGenresForTopN t n) :
    ∃ k ∈ prodKeys (selectedAll t n),
      kr = (k, sortAssoc ((summedRow t n k).filter
        (fun p => decide (p.1 ∉ basicHeaders)))) ∧
      (k, summedRow t n k) ∈ dropnaAny (summedTable t n) := by
  unfold onlyGenresForTopN colRestrict at h
  obtain ⟨kr0, hkr0, heq⟩ := List.mem_map.mp h
  subst heq
  obtain ⟨k, hk, heq0⟩ := List.mem_map.mp (List.mem_filter.mp hkr0).1
  subst heq0
  exact ⟨k, hk, rfl, hkr0⟩

/-- Helper: with an empty partition of selected rows, every column of the
summed row is null. -/
theorem summedRow_all_nan {t : RawTable} {n : ℤ} {k : PKey}
    (hpart : partitionRows (selectedAll t n) k = []) :
    ∀ p ∈ summedRow t n k, p.2 = PF.nan := by
  intro p hp
  unfold summedRow at hp
  obtain ⟨c, _, rfl⟩ := List.mem_map.mp hp
  rw [hpart]
  rfl

/-- Helper: with a nonempty partition of selected rows and numeric-or-null
raw cells, every column of the summed row is a number. -/
theorem summedRow_isNum {t : RawTable} {n : ℤ} {k : PKey}
    (hfin : ∀ r ∈ t.rows, (r.score.isNan || r.score.isNum) = true ∧
      ∀ p ∈ r.genres, (p.2.isNan || p.2.isNum) = true)
    (hpart : partitionRows (selectedAll t n) k ≠ []) :
    ∀ p ∈ summedRow t n k, p.2.isNum = true := by
  intro p hp
  unfold summedRow at hp
  obtain ⟨c, _, rfl⟩ := List.mem_map.mp hp
  have hcells : ∀ v ∈ (partitionRows (selectedAll t n) k).map
      (fun r => cellOfRaw r c), v.isNan = true ∨ v.isNum = true := by
    intro v hv
    obtain ⟨r, hrp, rfl⟩ := List.mem_map.mp hv
    have hrt : r ∈ t.rows :=
      selectedAll_subset (mem_of_mem_partitionRows hrp)
    rcases Bool.or_eq_true_iff.mp (cellOfRaw_finite hfin hrt c) with h | h
    · exact Or.inl h
    · exact Or.inr h
  obtain ⟨q, hq⟩ := sumPF_finite hcells
  show (groupSum _).isNum = true
  rw [groupSum_ne_nil (by simpa using hpart), hq]
  rfl

/-- Helper: a summed row survives the dropna exactly when its partition of
selected rows is nonempty (for numeric-or-null raw cells). -/
theorem dropna_keeps_iff {t : RawTable} {n : ℤ}
    (hfin : ∀ r ∈ t.rows, (r.score.isNan || r.score.isNum) = true ∧
      ∀ p ∈ r.genres, (p.2.isNan || p.2.isNum) = true)
    {k : PKey} (hk : k ∈ prodKeys (selectedAll t n)) :
    (k, summedRow t n k) ∈ dropnaAny (summedTable t n) ↔
      partitionRows (selectedAll t n) k ≠ [] := by
  have hmem : (k, summedRow t n k) ∈ summedTable t n :=
    List.mem_map.mpr ⟨k, hk, rfl⟩
  constructor
  · intro hkeep hpart
    have hpred := (List.mem_filter.mp hkeep).2
    have hhead : ("Score", groupSum ((partitionRows (selectedAll t n) k).map
        (fun r => cellOfRaw r "Score"))) ∈ summedRow t n k := by
      unfold summedRow
      exact List.mem_map.mpr ⟨"Score", List.mem_cons_self _ _, rfl⟩
    have h1 := summedRow_all_nan hpart _ hhead
    simp only [Bool.not_eq_true', List.any_eq_false] at hpred
    have h2 := hpred _ hhead
    rw [h1] at h2
    simp [PF.isNan] at h2
  · intro hpart
    refine List.mem_filter.mpr ⟨hmem, ?_⟩
    simp only [Bool.not_eq_true', List.any_eq_false]
    intro p hp
    have hni := summedRow_isNum hfin hpart p hp
    cases hv : p.2 with
    | num q => simp [PF.isNan]
    | nan => rw [hv] at hni; cases hni
    | inf => rw [hv] at hni; cases hni
    | ninf => rw [hv] at hni; cases hni

/-- Helper: looking a present column up in an all-numeric row is numeric. -/
theorem lookupCell_isNum {r : List (String × PF)} {c : String}
    (hmem : c ∈ r.map Prod.fst) (hnum : ∀ p ∈ r, p.2.isNum = true) :
    (lookupCell r c).isNum = true := by
  unfold lookupCell
  cases hf : r.find? (fun p => decide (p.1 = c)) with
  | some p => exact hnum p (List.mem_of_find?_eq_some hf)
  | none =>
    rw [List.find?_eq_none] at hf
    obtain ⟨p, hp, rfl⟩ := List.mem_map.mp hmem
    exact absurd (by simp : (decide (p.1 = p.1)) = true) (hf p hp)

/-- C4: Genre Aggregator postcondition (lines 9-21).  For a well-formed
input table (distinct genre columns, disjoint from the fixed non-genre
headers, every row carrying exactly those genre columns with numeric
counts and a numeric-or-null score): the output of only_genres_for_top_n
has exactly one row per (Year, Season) key observed among the selected
rows; the data columns of every output row are exactly the genre columns
(Score and the other fixed attribute columns are absent); and each genre
value is the arithmetic sum of that genre's counts over the partition's
selected rows. -/
theorem c4_aggregator_postcondition (t : RawTable) (n : ℤ)
    (hnd : t.gcols.Nodup)
    (hdisj : ∀ c ∈ t.gcols, c ∉ basicHeaders)
    (hwf : ∀ r ∈ t.rows, r.genres.map Prod.fst = t.gcols)
    (hnum : ∀ r ∈ t.rows, ∀ p ∈ r.genres, p.2.isNum = true)
    (hsc : ∀ r ∈ t.rows, (r.score.isNan || r.score.isNum) = true) :
    (((onlyGenresForTopN t n).map Prod.fst).Nodup ∧
      ∀ k : PKey, k ∈ (onlyGenresForTopN t n).map Prod.fst ↔
        ∃ r ∈ selectedAll t n, r.year = k.1 ∧ r.season = k.2) ∧
      (∀ kr ∈ onlyGenresForTopN t n, ∀ c : String,
        c ∈ kr.2.map Prod.fst ↔ c ∈ t.gcols) ∧
      (∀ kr ∈ onlyGenresForTopN t n, ∀ c ∈ t.gcols,
        lookupCell kr.2 c =
          PF.num (((partitionRows (selectedAll t n) kr.1).map
            (fun r => pfToQ (cellOfRaw r c))).sum)) := by
  have hfin : ∀ r ∈ t.rows, (r.score.isNan || r.score.isNum) = true ∧
      ∀ p ∈ r.genres, (p.2.isNan || p.2.isNum) = true := by
    intro r hr
    exact ⟨hsc r hr, fun p hp =>
      Bool.or_eq_true_iff.mpr (Or.inr (hnum r hr p hp))⟩
  have hallnd : ("Score" :: t.gcols).Nodup := by
    rw [List.nodup_cons]
    exact ⟨fun hs => hdisj "Score" hs (by decide), hnd⟩
  have hnamesf : ∀ k, ((summedRow t n k).filter
      (fun p => decide (p.1 ∉ basicHeaders))).map Prod.fst =
      ("Score" :: t.gcols).filter (fun s => decide (s ∉ basicHeaders)) := by
    intro k
    have h := map_fst_filter_keep (summedRow t n k)
      (fun s => decide (s ∉ basicHeaders))
    rwa [names_summedRow] at h
  refine ⟨⟨?_, ?_⟩, ?_, ?_⟩
  · have hsub : ((onlyGenresForTopN t n).map Prod.fst).Sublist
        (prodKeys (selectedAll t n)) := by
      unfold onlyGenresForTopN
      rw [keys_colRestrict]
      have h2 : (dropnaAny (summedTable t n)).Sublist (summedTable t n) :=
        List.filter_sublist _
      have h3 := h2.map Prod.fst
      rwa [keys_summedTable] at h3
    exact (nodup_prodKeys _).sublist hsub
  · intro k
    constructor
    · intro hkmem
      unfold onlyGenresForTopN at hkmem
      rw [keys_colRestrict] at hkmem
      obtain ⟨kr, hkr, hfst⟩ := List.mem_map.mp hkmem
      obtain ⟨k0, hk0, heq0⟩ := List.mem_map.mp (List.mem_filter.mp hkr).1
      subst heq0
      have hk0k : k0 = k := hfst
      subst hk0k
      have hpart := (dropna_keeps_iff hfin hk0).mp hkr
      obtain ⟨r, hr⟩ := List.exists_mem_of_ne_nil _ hpart
      exact ⟨r, mem_of_mem_partitionRows hr, key_of_mem_partitionRows hr⟩
    · rintro ⟨r, hrsel, hyk, hsk⟩
      have hky : k.1 ∈ sortedYears (selectedAll t n) :=
        mem_sortedYears.mpr ⟨r, hrsel, hyk⟩
      have hk : k ∈ prodKeys (selectedAll t n) := mem_prodKeys.mpr hky
      have hpart : partitionRows (selectedAll t n) k ≠ [] := by
        intro h0
        have hrp : r ∈ partitionRows (selectedAll t n) k :=
          mem_partitionRows.mpr ⟨hrsel, hyk, hsk⟩
        rw [h0] at hrp
        cases hrp
      have hkeep := (dropna_keeps_iff hfin hk).mpr hpart
      unfold onlyGenresForTopN
      rw [keys_colRestrict]
      exact List.mem_map.mpr ⟨(k, summedRow t n k), hkeep, rfl⟩
  · intro kr hkr c
    obtain ⟨k, hk, rfl, hkeep⟩ := mem_onlyGenres_inv hkr
    have hperm : ((sortAssoc ((summedRow t n k).filter
        (fun p => decide (p.1 ∉ basicHeaders)))).map Prod.fst).Perm
        (((summedRow t n k).filter
          (fun p => decide (p.1 ∉ basicHeaders))).map Prod.fst) :=
      (List.perm_insertionSort _ _).map _
    show c ∈ (sortAssoc ((summedRow t n k).filter
        (fun p => decide (p.1 ∉ basicHeaders)))).map Prod.fst ↔ c ∈ t.gcols
    rw [hperm.mem_iff, hnamesf k, List.filter_cons,
      if_neg (by decide : ¬ ((decide (("Score" : String) ∉ basicHeaders)) = true)),
      List.filter_eq_self.mpr
        (fun a ha => decide_eq_true (hdisj a ha))]
  · intro kr hkr c hc
    obtain ⟨k, hk, rfl, hkeep⟩ := mem_onlyGenres_inv hkr
    have hndf : (((summedRow t n k).filter
        (fun p => decide (p.1 ∉ basicHeaders))).map Prod.fst).Nodup := by
      rw [hnamesf k]
      exact hallnd.filter _
    show lookupCell (sortAssoc ((summedRow t n k).filter
        (fun p => decide (p.1 ∉ basicHeaders)))) c =
      PF.num (((partitionRows (selectedAll t n) k).map
        (fun r => pfToQ (cellOfRaw r c))).sum)
    rw [lookupCell_sortAssoc hndf]
    have hcb : (fun s => decide (s ∉ basicHeaders)) c = true :=
      decide_eq_true (hdisj c hc)
    unfold lookupCell
    rw [find?_filter_keep (summedRow t n k)
      (fun s => decide (s ∉ basicHeaders)) c hcb]
    unfold summedRow
    rw [find?_map_pairs ("Score" :: t.gcols)
      (fun c2 => groupSum ((partitionRows (selectedAll t n) k).map
        (fun r => cellOfRaw r c2))) c (List.mem_cons_of_mem _ hc)]
    have hpart : partitionRows (selectedAll t n) k ≠ [] :=
      (dropna_keeps_iff hfin hk).mp hkeep
    have hcnum : ∀ v ∈ (partitionRows (selectedAll t n) k).map
        (fun r => cellOfRaw r c), v.isNum = true := by
      intro v hv
      obtain ⟨r, hrp, rfl⟩ := List.mem_map.mp hv
      have hrt : r ∈ t.rows :=
        selectedAll_subset (mem_of_mem_partitionRows hrp)
      have hcs : c ≠ "Score" := fun h =>
        hdisj c hc (h ▸ (by decide : ("Score" : String) ∈ basicHeaders))
      unfold cellOfRaw
      rw [if_neg hcs]
      apply lookupCell_isNum
      · rw [hwf r hrt]
        exact hc
      · exact fun p hp => hnum r hrt p hp
    show groupSum ((partitionRows (selectedAll t n) k).map
        (fun r => cellOfRaw r c)) =
      PF.num (((partitionRows (selectedAll t n) k).map
        (fun r => pfToQ (cellOfRaw r c))).sum)
    rw [groupSum_ne_nil (by simpa using hpart), sumPF_num hcnum, List.map_map]
    rfl

/-- C4 witness: two rows (A=1, B=0) and (A=0, B=1) in the same season
aggregate to a single row for that season with columns exactly A and B and
values A=1, B=1 (Score and the other fixed headers are gone). -/
theorem c4_witness :
    (onlyGenresForTopN wtab 5).map Prod.fst = [((2020 : ℤ), Season.winter)] ∧
      (∀ kr ∈ onlyGenresForTopN wtab 5,
        lookupCell kr.2 "A" = PF.num 1 ∧ lookupCell kr.2 "B" = PF.num 1 ∧
          ("A" ∈ kr.2.map Prod.fst ↔ "A" ∈ wtab.gcols) ∧
          "Score" ∉ kr.2.map Prod.fst) := by
  have hkeys : (onlyGenresForTopN wtab 5).map Prod.fst =
      [((2020 : ℤ), Season.winter)] := by decide!
  refine ⟨hkeys, ?_⟩
  intro kr hkr
  have h4 := c4_aggregator_postcondition wtab 5 (by decide) (by decide)
    (by decide) (by decide) (by decide)
  have hkr1 : kr.1 = ((2020 : ℤ), Season.winter) := by
    have hks : kr.1 ∈ (onlyGenresForTopN wtab 5).map Prod.fst :=
      List.mem_map.mpr ⟨kr, hkr, rfl⟩
    rw [hkeys] at hks
    exact List.mem_singleton.mp hks
  refine ⟨?_, ?_, h4.2.1 kr hkr "A", ?_⟩
  · have hv := h4.2.2 kr hkr "A" (by decide)
    rw [hv, hkr1]
    decide!
  · have hv := h4.2.2 kr hkr "B" (by decide)
    rw [hv, hkr1]
    decide!
  · intro hs
    have hsg := (h4.2.1 kr hkr "Score").mp hs
    revert hsg
    decide

end AnalyzeTrend
